import Mathlib

/-!
Verification development for `egret/models/lazy_ptdf_utils.py`: a shallow embedding of
the lazy PTDF (power-transfer-distribution-factor) transmission-constraint engine —
tolerance-option handling, the flow/violation classifier `check_violations`, the
constraint adder `add_violations`, and the binary-variable relax/enforce utilities —
together with theorems settling the specified properties.

Numeric values (tolerances, flows, limits) are modelled as rationals `ℚ`; Python dicts
keyed by strings are modelled as functions `String → Option _`; printing is modelled as
an explicit diagnostic trace; `solver.add_constraint` calls are modelled as an explicit
pushed-constraint trace.
-/

namespace LazyPtdf

/-- A Python dict with string keys and numeric values (tolerance options dict). -/
def OptionsDict : Type := String → Option ℚ

/-- `d[k] = v` — pointwise dict update. -/
def dictSet (d : OptionsDict) (k : String) (v : ℚ) : OptionsDict :=
  fun k' => if k' = k then some v else d k'

/-- `if k not in d: d[k] = v` — one line of `populate_default_ptdf_options`. -/
def setIfAbsent (d : OptionsDict) (k : String) (v : ℚ) : OptionsDict :=
  if d k = none then dictSet d k v else d

/-- Embedding of `populate_default_ptdf_options(ptdf_options_dict)`: each of the five
recognized tolerance keys is set to its fixed default when missing, in source order. -/
def populate_default_ptdf_options (d : OptionsDict) : OptionsDict :=
  setIfAbsent (setIfAbsent (setIfAbsent (setIfAbsent (setIfAbsent d
    "rel_ptdf_tol" (1 / 10 ^ 6))
    "abs_ptdf_tol" (1 / 10 ^ 10))
    "abs_flow_tol" (1 / 10 ^ 3))
    "rel_flow_tol" (1 / 10 ^ 5))
    "lazy_rel_flow_tol" (-(15 / 100))

/-- The default value `populate_default_ptdf_options` would use for a key
(`none` for keys it does not recognize). -/
def defaultFor (k : String) : Option ℚ :=
  if k = "rel_ptdf_tol" then some (1 / 10 ^ 6)
  else if k = "abs_ptdf_tol" then some (1 / 10 ^ 10)
  else if k = "abs_flow_tol" then some (1 / 10 ^ 3)
  else if k = "rel_flow_tol" then some (1 / 10 ^ 5)
  else if k = "lazy_rel_flow_tol" then some (-(15 / 100))
  else none

/-- The five tolerance option keys, after scaling, as a record (the dict after
`populate_default_ptdf_options` always carries all five keys). -/
structure PTDFOptions where
  rel_ptdf_tol : ℚ
  abs_ptdf_tol : ℚ
  abs_flow_tol : ℚ
  rel_flow_tol : ℚ
  lazy_rel_flow_tol : ℚ
deriving Repr, DecidableEq

/-- The advisory warnings `check_and_scale_ptdf_options` can print, in source order. -/
inductive ScaleWarning
  | lowAbsFlowTol
  | absFlowTolBelowRelPtdf
  | lowRelPtdfTol
  | lowAbsPtdfTol
deriving Repr, DecidableEq

/-- Embedding of `check_and_scale_ptdf_options(ptdf_options_dict, baseMVA)`: divides
`abs_ptdf_tol` and `abs_flow_tol` by `baseMVA`, raises when the scaled `abs_flow_tol`
is below `lazy_rel_flow_tol`, and otherwise returns the scaled options together with
the list of advisory warnings that were printed. -/
def check_and_scale_ptdf_options (o : PTDFOptions) (baseMVA : ℚ) :
    Except String (PTDFOptions × List ScaleWarning) :=
  let abs_ptdf_tol := o.abs_ptdf_tol / baseMVA
  let abs_flow_tol := o.abs_flow_tol / baseMVA
  if abs_flow_tol < o.lazy_rel_flow_tol then
    .error "abs_flow_tol (when scaled by baseMVA) cannot be less than lazy_flow_tol"
  else
    .ok ({ o with abs_ptdf_tol := abs_ptdf_tol, abs_flow_tol := abs_flow_tol },
      (if abs_flow_tol < 1 / 10 ^ 6 then [ScaleWarning.lowAbsFlowTol] else []) ++
      (if abs_flow_tol < o.rel_ptdf_tol * 10 then [ScaleWarning.absFlowTolBelowRelPtdf] else []) ++
      (if o.rel_ptdf_tol < 1 / 10 ^ 6 then [ScaleWarning.lowRelPtdfTol] else []) ++
      (if abs_ptdf_tol < 1 / 10 ^ 12 then [ScaleWarning.lowAbsPtdfTol] else []))

/-! ### FlowEvaluator / ViolationClassifier: `check_violations` -/

/-- A bus net-withdrawal expression handed to `check_violations`; `pe.value` resolves it
to its numeric value. The `eid` field identifies the expression so that the evaluation
trace (which expressions were resolved, and in what order) can be stated. -/
structure NWExpr where
  eid : ℕ
  val : ℚ
deriving Repr, DecidableEq, Inhabited

/-- `[pe.value(e) for e in bus_nw_exprs]`: resolve each expression once, in list order.
Returns the value vector together with the trace of resolved expression ids. -/
def evalAll : List NWExpr → List ℚ × List ℕ
  | [] => ([], [])
  | e :: es =>
      let r := evalAll es
      (e.val :: r.1, e.eid :: r.2)

/-- Dot product of two vectors (`np.dot` on 1-d arrays). -/
def dot (xs ys : List ℚ) : ℚ := (List.zipWith (· * ·) xs ys).sum

/-- `np.dot(M, v)` — matrix-vector product, one dot product per row. -/
def matVec (M : List (List ℚ)) (v : List ℚ) : List ℚ := M.map (fun row => dot row v)

/-- `np.nonzero(np.greater(a, b))[0]` — the ascending indices `i` with `a[i] > b[i]`. -/
def gtIndices (a b : List ℚ) : List ℕ :=
  (List.range (min a.length b.length)).filter (fun i => decide (b.getD i 0 < a.getD i 0))

/-- `np.nonzero(np.less(a, b))[0]` — the ascending indices `i` with `a[i] < b[i]`. -/
def ltIndices (a b : List ℚ) : List ℕ :=
  (List.range (min a.length b.length)).filter (fun i => decide (a.getD i 0 < b.getD i 0))

/-- Everything `check_violations` returns, plus the expression-evaluation trace. -/
structure CVResult where
  PFV : List ℚ
  viol_num : ℕ
  gt_viol : List ℕ
  lt_viol : List ℕ
  gt_viol_lazy : List ℕ
  lt_viol_lazy : List ℕ
  eval_trace : List ℕ
deriving Repr, DecidableEq

/-- Embedding of `check_violations(PTDF_dict, bus_nw_exprs)`: resolve the bus
expressions once each in order, form `PFV = PTDFM · NWV`, classify indices against the
lazy and enforced limit arrays, and count the enforced-limit violations. -/
def check_violations (PTDFM : List (List ℚ)) (enforced_branch_limits : List ℚ)
    (lazy_branch_limits : List ℚ) (bus_nw_exprs : List NWExpr) : CVResult :=
  let r := evalAll bus_nw_exprs
  let PFV := matVec PTDFM r.1
  let gt_viol_lazy := gtIndices PFV lazy_branch_limits
  let lt_viol_lazy := ltIndices PFV (lazy_branch_limits.map (fun x => -x))
  let gt_viol := gtIndices PFV enforced_branch_limits
  let lt_viol := ltIndices PFV (enforced_branch_limits.map (fun x => -x))
  { PFV := PFV
    viol_num := gt_viol.length + lt_viol.length
    gt_viol := gt_viol
    lt_viol := lt_viol
    gt_viol_lazy := gt_viol_lazy
    lt_viol_lazy := lt_viol_lazy
    eval_trace := r.2 }

/-! ### ConstraintSetManager: `add_violations` -/

/-- Modelled from the spec: `get_power_flow_expr_ptdf_approx` (defined in
`egret.model_library.transmission.branch`, outside the sources at hand) builds the
sparse PTDF-weighted power-flow expression for one branch. No claim here depends on the
expression's internal structure, so it is modelled as an opaque token carrying the
branch identifier it was built for. -/
structure FlowExpr where
  bn : String
deriving Repr, DecidableEq, Inhabited

/-- One entry of a Pyomo constraint container: `(lower_bound, body, upper_bound)`. -/
structure ConstrEntry where
  lb : Option ℚ
  body : FlowExpr
  ub : Option ℚ
deriving Repr, DecidableEq

/-- Per-branch record from `PTDF_dict['branches']`: the thermal rating and the lazily
cached sparse PTDF row (`branch['ptdf']`, a bus → sensitivity map). -/
structure BranchRec where
  rating_long_term : ℚ
  ptdf : Option (List (String × ℚ))
deriving Repr, DecidableEq

/-- The mutable state `add_violations` works on: the per-branch flow-expression slots
`mb.pf`, the two thermal constraint containers of the model block, and the branch
records (whose `ptdf` field it caches). -/
structure AVState where
  pf : String → Option FlowExpr
  ineq_pf_branch_thermal_lb : String → Option ConstrEntry
  ineq_pf_branch_thermal_ub : String → Option ConstrEntry
  branches : String → BranchRec

/-- A diagnostic printed by `add_violations`, carrying the structured content of
`_generate_flow_viol_warning` / `_generate_flow_monitor_message` (flow and limit
already rescaled by `baseMVA`, as in the printed strings). -/
inductive Diag
  | flow_viol_warning (sense : String) (bn : String) (flow : ℚ) (limit : ℚ) (time : Option ℕ)
  | flow_monitor_message (sense : String) (bn : String) (flow : ℚ) (limit : ℚ) (time : Option ℕ)
deriving Repr, DecidableEq

/-- `_generate_flow_viol_warning(sense, bn, flow, limit, baseMVA, time)`. -/
def generate_flow_viol_warning (sense bn : String) (flow limit baseMVA : ℚ)
    (time : Option ℕ) : Diag :=
  .flow_viol_warning sense bn (flow * baseMVA) (limit * baseMVA) time

/-- `_generate_flow_monitor_message(sense, bn, flow, limit, baseMVA, time)`. -/
def generate_flow_monitor_message (sense bn : String) (flow limit baseMVA : ℚ)
    (time : Option ℕ) : Diag :=
  .flow_monitor_message sense bn (flow * baseMVA) (limit * baseMVA) time

/-- The two constraint directions: the `lt_viol_lazy` loop targets the lower-bound
container (`'LB'`), the `gt_viol_lazy` loop the upper-bound container (`'UB'`). -/
inductive Dir | LB | UB
deriving Repr, DecidableEq

/-- The inputs of `add_violations` that stay fixed during the call. -/
structure AVInput where
  persistent_solver : Bool
  baseMVA : ℚ
  branches_idx : List String
  PTDFM : List (List ℚ)
  buses_idx : List String
  gt_viol : List ℕ
  lt_viol : List ℕ
  gt_viol_lazy : List ℕ
  lt_viol_lazy : List ℕ
  PFV : List ℚ
  time : Option ℕ

/-- Pointwise update of a string-keyed map. -/
def upd {β : Type} (f : String → β) (k : String) (v : β) : String → β :=
  fun k' => if k' = k then v else f k'

/-- `branch['ptdf'] = {bus : PTDFM[i,j] for j, bus in enumerate(buses_idx)}`. -/
def ptdfRow (M : List (List ℚ)) (buses : List String) (i : ℕ) : List (String × ℚ) :=
  buses.enum.map (fun jb => (jb.2, (M.getD i []).getD jb.1 0))

/-- `bn = branches_idx[i]` — the branch name at index `i`. -/
def branchName (a : AVInput) (i : ℕ) : String := a.branches_idx.getD i ""

/-- `if 'ptdf' not in branch: branch['ptdf'] = {...}` — cache the branch's sparse PTDF
row when absent (first half of the `_iter_over_viol_set` body). -/
def cachePtdf (a : AVInput) (branch : BranchRec) (i : ℕ) : BranchRec :=
  match branch.ptdf with
  | some _ => branch
  | none => { branch with ptdf := some (ptdfRow a.PTDFM a.buses_idx i) }

/-- Look up the branch name and, when `mb.pf[bn].expr is None`, cache the sparse PTDF
row and set the flow expression (continuing the `_iter_over_viol_set` body above). -/
def ensure_pf (a : AVInput) (st : AVState) (i : ℕ) : AVState × String × BranchRec :=
  match st.pf (branchName a i) with
  | some _ => (st, branchName a i, st.branches (branchName a i))
  | none =>
      ({ st with
          branches := upd st.branches (branchName a i)
            (cachePtdf a (st.branches (branchName a i)) i),
          pf := upd st.pf (branchName a i) (some ⟨branchName a i⟩) },
        branchName a i, cachePtdf a (st.branches (branchName a i)) i)

/-- Output accumulated by one direction loop of `add_violations`: final state, printed
diagnostics, constraints pushed via `solver.add_constraint`, the
`{lt,gt}_viol_in_constr` counter, and the indices processed in iteration order. -/
structure DirOut where
  st : AVState
  diags : List Diag
  pushed : List (String × ConstrEntry)
  count : ℕ
  processed : List ℕ

/-- Read the constraint container a direction loop works on. -/
def getConstr (dir : Dir) (st : AVState) : String → Option ConstrEntry :=
  match dir with
  | .LB => st.ineq_pf_branch_thermal_lb
  | .UB => st.ineq_pf_branch_thermal_ub

/-- The `'LB'` / `'UB'` sense tag used in the diagnostics. -/
def senseStr : Dir → String
  | .LB => "LB"
  | .UB => "UB"

/-- The signed limit a direction's diagnostics report: `-thermal_limit` for the
lower-bound loop, `+thermal_limit` for the upper-bound loop. -/
def dirLimit (dir : Dir) (r : ℚ) : ℚ :=
  match dir with
  | .LB => -r
  | .UB => r

/-- The constraint entry a direction's loop materializes:
`(-thermal_limit, expr, None)` in the lower loop, `(None, expr, thermal_limit)` in the
upper loop. -/
def dirEntry (dir : Dir) (r : ℚ) (e : FlowExpr) : ConstrEntry :=
  match dir with
  | .LB => ⟨some (-r), e, none⟩
  | .UB => ⟨none, e, some r⟩

/-- One loop iteration of `add_violations` for index `i` of the direction's lazy
violation set, with `viol` the direction's true violation set: warn and count when the
constraint exists and the branch truly violates; otherwise materialize the constraint
at the branch's rating when it does not exist yet (pushing it to a persistent solver);
otherwise do nothing. -/
def dirStep (a : AVInput) (dir : Dir) (viol : List ℕ) (st : AVState) (i : ℕ) : DirOut :=
  let e := ensure_pf a st i
  let st1 := e.1
  let bn := e.2.1
  let thermal_limit := e.2.2.rating_long_term
  let constr := getConstr dir st1
  let msgLimit : ℚ := match dir with | .LB => -thermal_limit | .UB => thermal_limit
  if (constr bn).isSome ∧ i ∈ viol then
    { st := st1
      diags := [generate_flow_viol_warning (senseStr dir) bn (a.PFV.getD i 0) msgLimit
        a.baseMVA a.time]
      pushed := []
      count := 1
      processed := [i] }
  else if constr bn = none then
    let pfbn := (st1.pf bn).getD ⟨bn⟩
    let entry : ConstrEntry :=
      match dir with
      | .LB => ⟨some (-thermal_limit), pfbn, none⟩
      | .UB => ⟨none, pfbn, some thermal_limit⟩
    let st2 :=
      match dir with
      | .LB => { st1 with ineq_pf_branch_thermal_lb := upd st1.ineq_pf_branch_thermal_lb bn (some entry) }
      | .UB => { st1 with ineq_pf_branch_thermal_ub := upd st1.ineq_pf_branch_thermal_ub bn (some entry) }
    { st := st2
      diags := [generate_flow_monitor_message (senseStr dir) bn (a.PFV.getD i 0) msgLimit
        a.baseMVA a.time]
      pushed := if a.persistent_solver then [(bn, entry)] else []
      count := 0
      processed := [i] }
  else
    { st := st1, diags := [], pushed := [], count := 0, processed := [i] }

/-- One full direction loop (`for i, bn, branch in _iter_over_viol_set(viol_lazy)`),
processing the lazy violation set in list order. -/
def processDir (a : AVInput) (dir : Dir) (viol : List ℕ) (st : AVState) :
    List ℕ → DirOut
  | [] => { st := st, diags := [], pushed := [], count := 0, processed := [] }
  | i :: rest =>
      let p := dirStep a dir viol st i
      let o := processDir a dir viol p.st rest
      { st := o.st
        diags := p.diags ++ o.diags
        pushed := p.pushed ++ o.pushed
        count := p.count + o.count
        processed := p.processed ++ o.processed }

/-- What `add_violations` leaves behind: the mutated state, the traces, the two
counters, the never-returned local `all_viol_in_mb`, and the function's actual Python
return value `ret` (there is no return statement, so it is `None`). -/
structure AVResult where
  st : AVState
  diags : List Diag
  pushed : List (String × ConstrEntry)
  lt_viol_in_constr : ℕ
  gt_viol_in_constr : ℕ
  all_viol_in_mb : Bool
  ret : Option Bool
  processedLB : List ℕ
  processedUB : List ℕ

/-- Embedding of `add_violations(viols_tup, PFV, mb, md, solver, ...)`: run the
lower-bound loop over `lt_viol_lazy`, then the upper-bound loop over `gt_viol_lazy`,
compute the local `all_viol_in_mb`, and fall off the end (returning `None`). -/
def add_violations (a : AVInput) (st0 : AVState) : AVResult :=
  let o1 := processDir a .LB a.lt_viol st0 a.lt_viol_lazy
  let o2 := processDir a .UB a.gt_viol o1.st a.gt_viol_lazy
  { st := o2.st
    diags := o1.diags ++ o2.diags
    pushed := o1.pushed ++ o2.pushed
    lt_viol_in_constr := o1.count
    gt_viol_in_constr := o2.count
    all_viol_in_mb := decide (a.lt_viol.length = o1.count) && decide (a.gt_viol.length = o2.count)
    ret := none
    processedLB := o1.processed
    processedUB := o2.processed }

/-! ### VariableDomainRelaxer: `_binary_var_generator`, relaxer / enforcer -/

/-- A reference to one decision variable yielded by `_binary_var_generator`. -/
inductive UCVar
  | UnitOn (g : String) (t : ℕ)
  | UnitStayOn (g : String) (t : ℕ)
  | UnitStart (g : String) (t : ℕ)
  | UnitStop (g : String) (t : ℕ)
  | RegulationOn (g : String) (t : ℕ)
  | OutputStorage (s : String) (t : ℕ)
  | StartupIndicator (g : String) (t_prime : ℕ) (t : ℕ)
  | delta (g : String) (s : ℕ) (t : ℕ)
deriving Repr, DecidableEq

/-- A Pyomo variable domain, as far as the relaxer/enforcer is concerned. -/
inductive VarDomain
  | Binary
  | UnitInterval
  | Other
deriving Repr, DecidableEq

/-- The configuration of a unit-commitment model instance that
`_binary_var_generator` enumerates over (sets, formulation-variant strings, and
whether the instance has regulation). Variable domains live separately in
`DomainMap`, since the enumeration never consults them. -/
structure UCInstance where
  TimePeriods : List ℕ
  ThermalGenerators : List String
  AGC_Generators : List String
  Storage : List String
  regulation : Bool
  status_vars : String
  startup_costs : String
  StartupIndicator_domain : List (String × ℕ × ℕ)
  StartupCostsIndexSet : List (String × ℕ × ℕ)

/-- The current domain of every variable (the mutable state the relaxer/enforcer
act on). -/
def DomainMap : Type := UCVar → VarDomain

/-- Embedding of `_binary_var_generator(instance)`: the sequence of variables yielded,
in generator order, as a function of the instance configuration only. -/
def binary_var_generator (inst : UCInstance) : List UCVar :=
  (inst.TimePeriods.flatMap (fun t =>
    (inst.ThermalGenerators.flatMap (fun g =>
      (if inst.status_vars ∈ ["CA_1bin_vars", "garver_3bin_vars", "garver_2bin_vars",
          "garver_3bin_relaxed_stop_vars"] then [UCVar.UnitOn g t] else []) ++
      (if inst.status_vars ∈ ["ALS_state_transition_vars"] then [UCVar.UnitStayOn g t]
        else []) ++
      (if inst.status_vars ∈ ["garver_3bin_vars", "garver_2bin_vars",
          "garver_3bin_relaxed_stop_vars", "ALS_state_transition_vars"] then
        [UCVar.UnitStart g t] else []) ++
      (if inst.status_vars ∈ ["garver_3bin_vars", "ALS_state_transition_vars"] then
        [UCVar.UnitStop g t] else []))) ++
    (if inst.regulation then inst.AGC_Generators.map (fun g => UCVar.RegulationOn g t)
      else []) ++
    inst.Storage.map (fun s => UCVar.OutputStorage s t))) ++
  (if inst.startup_costs ∈ ["KOW_startup_costs"] then
    inst.StartupIndicator_domain.map (fun p => UCVar.StartupIndicator p.1 p.2.1 p.2.2)
  else if inst.startup_costs ∈ ["MLR_startup_costs", "MLR_startup_costs2"] then
    inst.StartupCostsIndexSet.map (fun p => UCVar.delta p.1 p.2.1 p.2.2)
  else [])

/-- Set `var.domain = d` for every variable of `vs`, in order. -/
def setDomains (vs : List UCVar) (d : VarDomain) (dom : DomainMap) : DomainMap :=
  vs.foldl (fun acc v => fun v' => if v' = v then d else acc v') dom

/-- The trace of `solver.update_var(var)` calls made while walking `vs`:
every enumerated variable when the solver is persistent, nothing otherwise. -/
def updateVarCalls (vs : List UCVar) (persistent_solver : Bool) : List UCVar :=
  if persistent_solver then vs else []

/-- Embedding of `uc_instance_binary_relaxer(model, solver)`: set every generated
variable's domain to `UnitInterval`, pushing each change when persistent. -/
def uc_instance_binary_relaxer (inst : UCInstance) (persistent_solver : Bool)
    (dom : DomainMap) : DomainMap × List UCVar :=
  (setDomains (binary_var_generator inst) VarDomain.UnitInterval dom,
   updateVarCalls (binary_var_generator inst) persistent_solver)

/-- Embedding of `uc_instance_binary_enforcer(model, solver)`: set every generated
variable's domain to `Binary`, pushing each change when persistent. -/
def uc_instance_binary_enforcer (inst : UCInstance) (persistent_solver : Bool)
    (dom : DomainMap) : DomainMap × List UCVar :=
  (setDomains (binary_var_generator inst) VarDomain.Binary dom,
   updateVarCalls (binary_var_generator inst) persistent_solver)

/-! ### Concrete instances used by witnesses and counterexamples -/

/-- A one-branch input: branch `b0` (PTDF row `[1]`, flow `2`) violates its enforced
upper limit and its lazy upper limit; no lower violations. -/
def exInput : AVInput where
  persistent_solver := false
  baseMVA := 1
  branches_idx := ["b0"]
  PTDFM := [[1]]
  buses_idx := ["u"]
  gt_viol := [0]
  lt_viol := []
  gt_viol_lazy := [0]
  lt_viol_lazy := []
  PFV := [2]
  time := none

/-- A state in which branch `b0` already has its flow expression and an upper-bound
constraint materialized (rating `1`), and no lower-bound constraints. -/
def exState : AVState where
  pf := fun bn => if bn = "b0" then some ⟨"b0"⟩ else none
  ineq_pf_branch_thermal_lb := fun _ => none
  ineq_pf_branch_thermal_ub := fun bn =>
    if bn = "b0" then some ⟨none, ⟨"b0"⟩, some 1⟩ else none
  branches := fun _ => ⟨1, none⟩

/-- `exInput` with a persistent solver attached. -/
def exInputP : AVInput :=
  { exInput with persistent_solver := true }

/-- A state with no flow expressions and empty constraint containers. -/
def exEmptyState : AVState where
  pf := fun _ => none
  ineq_pf_branch_thermal_lb := fun _ => none
  ineq_pf_branch_thermal_ub := fun _ => none
  branches := fun _ => ⟨1, none⟩

/-- A small unit-commitment instance: one time period, one thermal generator, the
`garver_3bin_vars` status formulation, `KOW_startup_costs` with an empty indicator
domain, no regulation and no storage. -/
def exUC : UCInstance where
  TimePeriods := [1]
  ThermalGenerators := ["g1"]
  AGC_Generators := []
  Storage := []
  regulation := false
  status_vars := "garver_3bin_vars"
  startup_costs := "KOW_startup_costs"
  StartupIndicator_domain := []
  StartupCostsIndexSet := []

/-- All variables binary initially. -/
def exDom : DomainMap := fun _ => VarDomain.Binary

/-! ### Helper lemmas -/

lemma setIfAbsent_apply (d : OptionsDict) (k : String) (v : ℚ) (k' : String) :
    setIfAbsent d k v k' = if k' = k ∧ d k = none then some v else d k' := by
  unfold setIfAbsent dictSet
  by_cases h : d k = none
  · simp only [h, if_true]
    by_cases h2 : k' = k
    · simp [h2]
    · simp [h2]
  · simp only [h, if_false]
    by_cases h2 : k' = k
    · subst h2; simp [h]
    · simp [h2]

lemma evalAll_fst (es : List NWExpr) : (evalAll es).1 = es.map NWExpr.val := by
  induction es with
  | nil => rfl
  | cons e es ih => simp [evalAll, ih]

lemma evalAll_snd (es : List NWExpr) : (evalAll es).2 = es.map NWExpr.eid := by
  induction es with
  | nil => rfl
  | cons e es ih => simp [evalAll, ih]

lemma mem_gtIndices (a b : List ℚ) (i : ℕ) :
    i ∈ gtIndices a b ↔ i < a.length ∧ i < b.length ∧ b.getD i 0 < a.getD i 0 := by
  simp [gtIndices, List.mem_filter, List.mem_range, lt_min_iff, and_assoc]

lemma mem_ltIndices (a b : List ℚ) (i : ℕ) :
    i ∈ ltIndices a b ↔ i < a.length ∧ i < b.length ∧ a.getD i 0 < b.getD i 0 := by
  simp [ltIndices, List.mem_filter, List.mem_range, lt_min_iff, and_assoc]

lemma sorted_gtIndices (a b : List ℚ) : (gtIndices a b).Sorted (· < ·) :=
  (List.sorted_lt_range _).sublist (List.filter_sublist _)

lemma sorted_ltIndices (a b : List ℚ) : (ltIndices a b).Sorted (· < ·) :=
  (List.sorted_lt_range _).sublist (List.filter_sublist _)

lemma dot_eq_sum (xs ys : List ℚ) (n : ℕ) (hx : xs.length = n) (hy : ys.length = n) :
    dot xs ys = ∑ j ∈ Finset.range n, xs.getD j 0 * ys.getD j 0 := by
  induction n generalizing xs ys with
  | zero =>
      rw [List.length_eq_zero] at hx hy
      subst hx; subst hy; simp [dot]
  | succ n ih =>
      cases xs with
      | nil => simp at hx
      | cons x xs =>
        cases ys with
        | nil => simp at hy
        | cons y ys =>
          simp only [List.length_cons, Nat.succ.injEq] at hx hy
          simp only [dot, List.zipWith_cons_cons, List.sum_cons]
          rw [Finset.sum_range_succ']
          simp only [List.getD_cons_succ, List.getD_cons_zero]
          rw [← dot, ih xs ys hx hy]
          ring

lemma ifNoneOr (o : Option ℚ) (v : ℚ) : (if o = none then some v else o) = o.or (some v) := by
  cases o <;> rfl

lemma getD_map_neg (l : List ℚ) (i : ℕ) (hi : i < l.length) :
    (l.map (fun x => -x)).getD i 0 = -(l.getD i 0) := by
  rw [List.getD_eq_getElem?_getD, List.getD_eq_getElem?_getD, List.getElem?_map,
      List.getElem?_eq_getElem hi]
  simp

/-! ### Theorems: tolerance options (C9, C2) -/

/-- **C9.** `populate_default_ptdf_options` sets exactly the missing entries among the
five recognized tolerance options to the fixed defaults (`rel_ptdf_tol = 1e-6`,
`abs_ptdf_tol = 1e-10`, `abs_flow_tol = 1e-3`, `rel_flow_tol = 1e-5`,
`lazy_rel_flow_tol = -0.15`) and leaves every caller-supplied entry unchanged:
pointwise, the result is the caller's entry when present, otherwise the default for a
recognized key, otherwise still absent. -/
theorem populate_default_ptdf_options_spec (d : OptionsDict) (k : String) :
    populate_default_ptdf_options d k = (d k).or (defaultFor k) := by
  unfold populate_default_ptdf_options defaultFor
  by_cases h1 : k = "rel_ptdf_tol" <;>
    by_cases h2 : k = "abs_ptdf_tol" <;>
      by_cases h3 : k = "abs_flow_tol" <;>
        by_cases h4 : k = "rel_flow_tol" <;>
          by_cases h5 : k = "lazy_rel_flow_tol" <;>
            simp_all [setIfAbsent_apply] <;>
              exact ifNoneOr _ _

/-- **C2.** `check_and_scale_ptdf_options` divides `abs_ptdf_tol` and `abs_flow_tol`
by the base power and raises exactly when the scaled `abs_flow_tol` is below
`lazy_rel_flow_tol`; when it does not raise it returns the scaled options together
with some list of advisory warnings, so none of the advisory-warning conditions can
abort processing. -/
theorem check_and_scale_ptdf_options_spec (o : PTDFOptions) (baseMVA : ℚ) :
    ((∃ msg, check_and_scale_ptdf_options o baseMVA = .error msg) ↔
      o.abs_flow_tol / baseMVA < o.lazy_rel_flow_tol) ∧
    (¬ o.abs_flow_tol / baseMVA < o.lazy_rel_flow_tol →
      ∃ warnings, check_and_scale_ptdf_options o baseMVA =
        .ok ({ o with abs_ptdf_tol := o.abs_ptdf_tol / baseMVA,
                      abs_flow_tol := o.abs_flow_tol / baseMVA }, warnings)) := by
  unfold check_and_scale_ptdf_options
  constructor
  · by_cases h : o.abs_flow_tol / baseMVA < o.lazy_rel_flow_tol <;> simp [h]
  · intro h
    simp [h]

/-- Witness for C2: the scenario `abs_flow_tol` scaled to `0.0005` with
`lazy_rel_flow_tol = 0.001` raises, while the default options (whose scaled
`abs_flow_tol` triggers an advisory warning but satisfies the ordering) succeed. -/
theorem check_and_scale_ptdf_options_spec_witness :
    (∃ msg, check_and_scale_ptdf_options
        ⟨1 / 10 ^ 6, 1 / 10 ^ 10, 1 / 2000, 1 / 10 ^ 5, 1 / 1000⟩ 1 = .error msg) ∧
    (∃ warnings, check_and_scale_ptdf_options
        ⟨1 / 10 ^ 6, 1 / 10 ^ 10, 1 / 10 ^ 3, 1 / 10 ^ 5, -(15 / 100)⟩ 2 =
      .ok ({ rel_ptdf_tol := 1 / 10 ^ 6, abs_ptdf_tol := (1 : ℚ) / 10 ^ 10 / 2,
             abs_flow_tol := (1 : ℚ) / 10 ^ 3 / 2, rel_flow_tol := 1 / 10 ^ 5,
             lazy_rel_flow_tol := -(15 / 100) }, warnings)) :=
  ⟨(check_and_scale_ptdf_options_spec
      ⟨1 / 10 ^ 6, 1 / 10 ^ 10, 1 / 2000, 1 / 10 ^ 5, 1 / 1000⟩ 1).1.mpr (by norm_num),
   (check_and_scale_ptdf_options_spec
      ⟨1 / 10 ^ 6, 1 / 10 ^ 10, 1 / 10 ^ 3, 1 / 10 ^ 5, -(15 / 100)⟩ 2).2 (by norm_num)⟩

/-! ### Theorems: the classifier `check_violations` (C4, C3) -/

lemma getD_map_val (es : List NWExpr) (j : ℕ) (hj : j < es.length) :
    (es.map NWExpr.val).getD j 0 = (es.getD j default).val := by
  rw [List.getD_eq_getElem?_getD, List.getD_eq_getElem?_getD, List.getElem?_map,
      List.getElem?_eq_getElem hj]
  simp

lemma check_violations_PFV (M : List (List ℚ)) (enf lz : List ℚ) (exprs : List NWExpr) :
    (check_violations M enf lz exprs).PFV = matVec M (exprs.map NWExpr.val) := by
  show matVec M (evalAll exprs).1 = _
  rw [evalAll_fst]

lemma check_violations_PFV_length (M : List (List ℚ)) (enf lz : List ℚ)
    (exprs : List NWExpr) : (check_violations M enf lz exprs).PFV.length = M.length := by
  rw [check_violations_PFV]; simp [matVec]

/-- **C4.** `check_violations` resolves every bus-injection expression exactly once, in
bus order (the evaluation trace is exactly the expression-id list); returns
`PFV = PTDFM · bus_injections` (each entry the usual matrix-vector sum when the row
lengths match the bus count); produces the four index sets by elementwise comparison of
`PFV` against `+lazy`, `−lazy`, `+enforced`, `−enforced`; and returns
`viol_num = |gt_viol| + |lt_viol|`, counting enforced-limit violations only. The
embedding is a total function, so classification raises nothing, including on
empty-violation inputs. -/
theorem check_violations_spec (M : List (List ℚ)) (enf lz : List ℚ)
    (exprs : List NWExpr) (hrows : ∀ row ∈ M, row.length = exprs.length) :
    (check_violations M enf lz exprs).eval_trace = exprs.map NWExpr.eid ∧
    (check_violations M enf lz exprs).PFV.length = M.length ∧
    (∀ i, i < M.length →
      (check_violations M enf lz exprs).PFV.getD i 0 =
        ∑ j ∈ Finset.range exprs.length,
          (M.getD i []).getD j 0 * (exprs.getD j default).val) ∧
    (∀ i, i ∈ (check_violations M enf lz exprs).gt_viol ↔
      i < M.length ∧ i < enf.length ∧
        enf.getD i 0 < (check_violations M enf lz exprs).PFV.getD i 0) ∧
    (∀ i, i ∈ (check_violations M enf lz exprs).lt_viol ↔
      i < M.length ∧ i < enf.length ∧
        (check_violations M enf lz exprs).PFV.getD i 0 < -(enf.getD i 0)) ∧
    (∀ i, i ∈ (check_violations M enf lz exprs).gt_viol_lazy ↔
      i < M.length ∧ i < lz.length ∧
        lz.getD i 0 < (check_violations M enf lz exprs).PFV.getD i 0) ∧
    (∀ i, i ∈ (check_violations M enf lz exprs).lt_viol_lazy ↔
      i < M.length ∧ i < lz.length ∧
        (check_violations M enf lz exprs).PFV.getD i 0 < -(lz.getD i 0)) ∧
    (check_violations M enf lz exprs).viol_num =
      (check_violations M enf lz exprs).gt_viol.length +
        (check_violations M enf lz exprs).lt_viol.length := by
  have hlen := check_violations_PFV_length M enf lz exprs
  refine ⟨evalAll_snd exprs, hlen, ?_, ?_, ?_, ?_, ?_, rfl⟩
  · intro i hi
    rw [check_violations_PFV]
    have hrow : (M.getD i []).length = exprs.length := by
      refine hrows _ ?_
      rw [List.getD_eq_getElem _ _ hi]
      exact List.getElem_mem _
    have hmv : (matVec M (exprs.map NWExpr.val)).getD i 0 =
        dot (M.getD i []) (exprs.map NWExpr.val) := by
      unfold matVec
      rw [List.getD_eq_getElem _ _ (by simpa using hi), List.getElem_map,
          List.getD_eq_getElem _ _ hi]
    rw [hmv, dot_eq_sum _ _ exprs.length hrow (by simp)]
    refine Finset.sum_congr rfl (fun j hj => ?_)
    rw [Finset.mem_range] at hj
    rw [getD_map_val _ _ hj]
  · intro i
    rw [show (check_violations M enf lz exprs).gt_viol =
          gtIndices (check_violations M enf lz exprs).PFV enf from rfl,
        mem_gtIndices, hlen]
  · intro i
    rw [show (check_violations M enf lz exprs).lt_viol =
          ltIndices (check_violations M enf lz exprs).PFV (enf.map (fun x => -x)) from rfl,
        mem_ltIndices, hlen, List.length_map]
    constructor
    · rintro ⟨h1, h2, h3⟩
      rw [getD_map_neg _ _ h2] at h3
      exact ⟨h1, h2, h3⟩
    · rintro ⟨h1, h2, h3⟩
      exact ⟨h1, h2, by rwa [getD_map_neg _ _ h2]⟩
  · intro i
    rw [show (check_violations M enf lz exprs).gt_viol_lazy =
          gtIndices (check_violations M enf lz exprs).PFV lz from rfl,
        mem_gtIndices, hlen]
  · intro i
    rw [show (check_violations M enf lz exprs).lt_viol_lazy =
          ltIndices (check_violations M enf lz exprs).PFV (lz.map (fun x => -x)) from rfl,
        mem_ltIndices, hlen, List.length_map]
    constructor
    · rintro ⟨h1, h2, h3⟩
      rw [getD_map_neg _ _ h2] at h3
      exact ⟨h1, h2, h3⟩
    · rintro ⟨h1, h2, h3⟩
      exact ⟨h1, h2, by rwa [getD_map_neg _ _ h2]⟩

/-- Witness for C4, on the spec's 2-bus 1-branch scenario (PTDF row `[1, −1]`, rating
`1` per-unit, lazy limit `0.85`, injections `3/2` and `−3/2`, so the flow is `3`):
index `0` is a true upper violation. -/
theorem check_violations_spec_witness :
    (0 : ℕ) ∈ (check_violations [[(1 : ℚ), -1]] [1] [17 / 20]
      [⟨0, 3 / 2⟩, ⟨1, -(3 / 2)⟩]).gt_viol :=
  ((check_violations_spec [[(1 : ℚ), -1]] [1] [17 / 20] [⟨0, 3 / 2⟩, ⟨1, -(3 / 2)⟩]
      (by decide)).2.2.2.1 0).mpr
    (by refine ⟨by decide, by decide, ?_⟩
        rw [check_violations_PFV]
        norm_num [matVec, dot])

/-- **C3.** Classifier invariant: whenever the lazy limit array is elementwise at most
the enforced limit array (on the enforced array's length), the enforced-violation index
sets returned by `check_violations` are subsets of the corresponding lazy sets. -/
theorem check_violations_subset (M : List (List ℚ)) (enf lz : List ℚ)
    (exprs : List NWExpr) (hlen : lz.length = enf.length)
    (hle : ∀ i, i < enf.length → lz.getD i 0 ≤ enf.getD i 0) :
    (check_violations M enf lz exprs).gt_viol ⊆
      (check_violations M enf lz exprs).gt_viol_lazy ∧
    (check_violations M enf lz exprs).lt_viol ⊆
      (check_violations M enf lz exprs).lt_viol_lazy := by
  constructor
  · intro i hi
    rw [show (check_violations M enf lz exprs).gt_viol =
          gtIndices (check_violations M enf lz exprs).PFV enf from rfl,
        mem_gtIndices] at hi
    rw [show (check_violations M enf lz exprs).gt_viol_lazy =
          gtIndices (check_violations M enf lz exprs).PFV lz from rfl,
        mem_gtIndices]
    obtain ⟨h1, h2, h3⟩ := hi
    exact ⟨h1, hlen ▸ h2, lt_of_le_of_lt (hle i h2) h3⟩
  · intro i hi
    rw [show (check_violations M enf lz exprs).lt_viol =
          ltIndices (check_violations M enf lz exprs).PFV (enf.map (fun x => -x)) from rfl,
        mem_ltIndices] at hi
    rw [show (check_violations M enf lz exprs).lt_viol_lazy =
          ltIndices (check_violations M enf lz exprs).PFV (lz.map (fun x => -x)) from rfl,
        mem_ltIndices]
    obtain ⟨h1, h2, h3⟩ := hi
    rw [List.length_map] at h2
    rw [getD_map_neg _ _ h2] at h3
    have h2' : i < lz.length := hlen ▸ h2
    refine ⟨h1, by simpa using h2', ?_⟩
    rw [getD_map_neg _ _ h2']
    exact lt_of_lt_of_le h3 (neg_le_neg (hle i h2))

/-- Witness for C3 on the scenario data (lazy limit `0.85` below enforced limit `1`,
flow `3`): the enforced upper violation at index `0` is also a lazy one. -/
theorem check_violations_subset_witness :
    (0 : ℕ) ∈ (check_violations [[(1 : ℚ), -1]] [1] [17 / 20]
      [⟨0, 3 / 2⟩, ⟨1, -(3 / 2)⟩]).gt_viol_lazy := by
  refine (check_violations_subset [[(1 : ℚ), -1]] [1] [17 / 20] [⟨0, 3 / 2⟩, ⟨1, -(3 / 2)⟩]
      (by decide) ?_).1 ?_
  · intro i hi
    simp only [List.length_singleton] at hi
    have h0 : i = 0 := by omega
    subst h0
    norm_num
  · rw [show (check_violations [[(1 : ℚ), -1]] [1] [17 / 20]
          [⟨0, 3 / 2⟩, ⟨1, -(3 / 2)⟩]).gt_viol =
        gtIndices (check_violations [[(1 : ℚ), -1]] [1] [17 / 20]
          [⟨0, 3 / 2⟩, ⟨1, -(3 / 2)⟩]).PFV [1] from rfl, mem_gtIndices]
    refine ⟨?_, by decide, ?_⟩
    · rw [check_violations_PFV_length]; decide
    · rw [check_violations_PFV]; norm_num [matVec, dot]

/-! ### Lemmas about `ensure_pf`, `dirStep`, `processDir` -/

lemma cachePtdf_rating (a : AVInput) (b : BranchRec) (i : ℕ) :
    (cachePtdf a b i).rating_long_term = b.rating_long_term := by
  unfold cachePtdf
  cases b.ptdf <;> rfl

lemma ensure_pf_lb (a : AVInput) (st : AVState) (i : ℕ) :
    (ensure_pf a st i).1.ineq_pf_branch_thermal_lb = st.ineq_pf_branch_thermal_lb := by
  unfold ensure_pf
  rcases h : st.pf (branchName a i) with _ | e <;> simp [h]

lemma ensure_pf_ub (a : AVInput) (st : AVState) (i : ℕ) :
    (ensure_pf a st i).1.ineq_pf_branch_thermal_ub = st.ineq_pf_branch_thermal_ub := by
  unfold ensure_pf
  rcases h : st.pf (branchName a i) with _ | e <;> simp [h]

lemma ensure_pf_name (a : AVInput) (st : AVState) (i : ℕ) :
    (ensure_pf a st i).2.1 = branchName a i := by
  unfold ensure_pf
  rcases h : st.pf (branchName a i) with _ | e <;> simp [h]

lemma ensure_pf_rating (a : AVInput) (st : AVState) (i : ℕ) (bn' : String) :
    ((ensure_pf a st i).1.branches bn').rating_long_term =
      (st.branches bn').rating_long_term := by
  unfold ensure_pf
  rcases h : st.pf (branchName a i) with _ | e
  · simp only [h, upd]
    by_cases hb : bn' = branchName a i
    · simp [hb, cachePtdf_rating]
    · simp [hb]
  · simp [h]

lemma ensure_pf_yield_rating (a : AVInput) (st : AVState) (i : ℕ) :
    (ensure_pf a st i).2.2.rating_long_term =
      (st.branches (branchName a i)).rating_long_term := by
  unfold ensure_pf
  rcases h : st.pf (branchName a i) with _ | e <;> simp [h, cachePtdf_rating]

lemma ensure_pf_pf_some (a : AVInput) (st : AVState) (i : ℕ) :
    ((ensure_pf a st i).1.pf (branchName a i)).isSome = true := by
  unfold ensure_pf
  rcases h : st.pf (branchName a i) with _ | e <;> simp [h, upd]

lemma ensure_pf_pf_mono (a : AVInput) (st : AVState) (i : ℕ) (bn' : String) (e : FlowExpr)
    (h : st.pf bn' = some e) : (ensure_pf a st i).1.pf bn' = some e := by
  unfold ensure_pf
  rcases hm : st.pf (branchName a i) with _ | f
  · simp only [hm, upd]
    by_cases hb : bn' = branchName a i
    · subst hb; rw [h] at hm; cases hm
    · simp [hb, h]
  · simp [hm, h]

lemma ensure_pf_of_some (a : AVInput) (st : AVState) (i : ℕ) (e : FlowExpr)
    (h : st.pf (branchName a i) = some e) :
    ensure_pf a st i = (st, branchName a i, st.branches (branchName a i)) := by
  unfold ensure_pf
  rw [h]

lemma ensure_pf_getConstr (a : AVInput) (dir : Dir) (st : AVState) (i : ℕ) :
    getConstr dir (ensure_pf a st i).1 = getConstr dir st := by
  cases dir
  · simp only [getConstr, ensure_pf_lb]
  · simp only [getConstr, ensure_pf_ub]

lemma dirStep_rating (a : AVInput) (dir : Dir) (viol : List ℕ) (st : AVState) (i : ℕ)
    (bn' : String) :
    ((dirStep a dir viol st i).st.branches bn').rating_long_term =
      (st.branches bn').rating_long_term := by
  cases dir <;> simp only [dirStep] <;> split_ifs <;> simp [ensure_pf_rating]

lemma dirStep_pf_mono (a : AVInput) (dir : Dir) (viol : List ℕ) (st : AVState) (i : ℕ)
    (bn' : String) (e : FlowExpr) (h : st.pf bn' = some e) :
    (dirStep a dir viol st i).st.pf bn' = some e := by
  cases dir <;> simp only [dirStep] <;> split_ifs <;> simp [ensure_pf_pf_mono a st i bn' e h]

lemma dirStep_pf_some (a : AVInput) (dir : Dir) (viol : List ℕ) (st : AVState) (i : ℕ) :
    ((dirStep a dir viol st i).st.pf (branchName a i)).isSome = true := by
  cases dir <;> simp only [dirStep] <;> split_ifs <;> simp [ensure_pf_pf_some]

lemma dirStep_lb_mono (a : AVInput) (dir : Dir) (viol : List ℕ) (st : AVState) (i : ℕ)
    (bn' : String) (v : ConstrEntry) (h : st.ineq_pf_branch_thermal_lb bn' = some v) :
    (dirStep a dir viol st i).st.ineq_pf_branch_thermal_lb bn' = some v := by
  cases dir <;> simp only [dirStep] <;> split_ifs with h1 h2 <;>
    simp_all [getConstr, ensure_pf_lb, ensure_pf_name, upd] <;>
      first
        | exact h
        | (intro hb; subst hb; rw [h] at h2; cases h2)

lemma dirStep_ub_mono (a : AVInput) (dir : Dir) (viol : List ℕ) (st : AVState) (i : ℕ)
    (bn' : String) (v : ConstrEntry) (h : st.ineq_pf_branch_thermal_ub bn' = some v) :
    (dirStep a dir viol st i).st.ineq_pf_branch_thermal_ub bn' = some v := by
  cases dir <;> simp only [dirStep] <;> split_ifs with h1 h2 <;>
    simp_all [getConstr, ensure_pf_ub, ensure_pf_name, upd] <;>
      first
        | exact h
        | (intro hb; subst hb; rw [h] at h2; cases h2)

lemma dirStep_lb_of_ub (a : AVInput) (viol : List ℕ) (st : AVState) (i : ℕ) :
    (dirStep a Dir.UB viol st i).st.ineq_pf_branch_thermal_lb =
      st.ineq_pf_branch_thermal_lb := by
  simp only [dirStep]
  split_ifs <;> simp [ensure_pf_lb]

lemma dirStep_ub_of_lb (a : AVInput) (viol : List ℕ) (st : AVState) (i : ℕ) :
    (dirStep a Dir.LB viol st i).st.ineq_pf_branch_thermal_ub =
      st.ineq_pf_branch_thermal_ub := by
  simp only [dirStep]
  split_ifs <;> simp [ensure_pf_ub]

lemma dirStep_constr_some (a : AVInput) (dir : Dir) (viol : List ℕ) (st : AVState)
    (i : ℕ) :
    (getConstr dir (dirStep a dir viol st i).st (branchName a i)).isSome = true := by
  cases dir <;> simp only [dirStep] <;> split_ifs with h1 h2 <;>
    simp_all [getConstr, ensure_pf_lb, ensure_pf_ub, ensure_pf_name, upd] <;>
      rcases h : st.ineq_pf_branch_thermal_lb (branchName a i) with _ | v <;>
        rcases h' : st.ineq_pf_branch_thermal_ub (branchName a i) with _ | w <;>
          simp_all

lemma dirStep_constr_other (a : AVInput) (dir : Dir) (viol : List ℕ) (st : AVState)
    (i : ℕ) (bn' : String) (hb : bn' ≠ branchName a i) :
    getConstr dir (dirStep a dir viol st i).st bn' = getConstr dir st bn' := by
  cases dir <;> simp only [dirStep] <;> split_ifs <;>
    simp_all [getConstr, ensure_pf_lb, ensure_pf_ub, ensure_pf_name, upd]

lemma dirStep_count (a : AVInput) (dir : Dir) (viol : List ℕ) (st : AVState) (i : ℕ) :
    (dirStep a dir viol st i).count =
      if (getConstr dir st (branchName a i)).isSome = true ∧ i ∈ viol then 1 else 0 := by
  cases dir <;> simp only [dirStep] <;> split_ifs <;>
    simp_all [getConstr, ensure_pf_lb, ensure_pf_ub, ensure_pf_name]

lemma dirStep_processed (a : AVInput) (dir : Dir) (viol : List ℕ) (st : AVState)
    (i : ℕ) : (dirStep a dir viol st i).processed = [i] := by
  cases dir <;> simp only [dirStep] <;> split_ifs <;> rfl

lemma dirStep_constr_mono (a : AVInput) (dir dir' : Dir) (viol : List ℕ) (st : AVState)
    (i : ℕ) (bn' : String) (v : ConstrEntry) (h : getConstr dir' st bn' = some v) :
    getConstr dir' (dirStep a dir viol st i).st bn' = some v := by
  cases dir'
  · exact dirStep_lb_mono a dir viol st i bn' v h
  · exact dirStep_ub_mono a dir viol st i bn' v h

lemma dirStep_pushed_nil (a : AVInput) (dir : Dir) (viol : List ℕ) (st : AVState)
    (i : ℕ) (h : a.persistent_solver = false) : (dirStep a dir viol st i).pushed = [] := by
  cases dir <;> simp only [dirStep] <;> split_ifs <;> simp_all

lemma dirStep_stable (a : AVInput) (dir : Dir) (viol : List ℕ) (st : AVState) (i : ℕ)
    (e : FlowExpr) (hpf : st.pf (branchName a i) = some e)
    (hc : (getConstr dir st (branchName a i)).isSome = true) :
    dirStep a dir viol st i =
      { st := st
        diags := if i ∈ viol then
            [generate_flow_viol_warning (senseStr dir) (branchName a i) (a.PFV.getD i 0)
              (dirLimit dir (st.branches (branchName a i)).rating_long_term)
              a.baseMVA a.time]
          else []
        pushed := []
        count := if i ∈ viol then 1 else 0
        processed := [i] } := by
  have he := ensure_pf_of_some a st i e hpf
  cases dir <;> simp only [dirStep, he, dirLimit] <;> by_cases hm : i ∈ viol <;>
    simp_all [getConstr, Option.isSome_iff_ne_none]

lemma dirStep_new (a : AVInput) (dir : Dir) (viol : List ℕ) (st : AVState) (i : ℕ)
    (h0 : getConstr dir st (branchName a i) = none) :
    ∃ e, getConstr dir (dirStep a dir viol st i).st (branchName a i) =
        some (dirEntry dir (st.branches (branchName a i)).rating_long_term e) ∧
      (dirStep a dir viol st i).diags =
        [generate_flow_monitor_message (senseStr dir) (branchName a i) (a.PFV.getD i 0)
          (dirLimit dir (st.branches (branchName a i)).rating_long_term)
          a.baseMVA a.time] ∧
      (dirStep a dir viol st i).pushed =
        (if a.persistent_solver then
          [((branchName a i),
            dirEntry dir (st.branches (branchName a i)).rating_long_term e)]
        else []) := by
  have hyr := ensure_pf_yield_rating a st i
  have hgc := ensure_pf_getConstr a dir st i
  have hnm := ensure_pf_name a st i
  refine ⟨((ensure_pf a st i).1.pf (branchName a i)).getD ⟨branchName a i⟩, ?_⟩
  cases dir <;> simp only [dirStep, hnm, dirEntry, dirLimit] <;> split_ifs with h1 h2 <;>
    simp_all [getConstr, upd]

lemma processDir_constr_mono (a : AVInput) (dir dir' : Dir) (viol : List ℕ)
    (l : List ℕ) (st : AVState) (bn' : String) (v : ConstrEntry)
    (h : getConstr dir' st bn' = some v) :
    getConstr dir' (processDir a dir viol st l).st bn' = some v := by
  induction l generalizing st with
  | nil => exact h
  | cons i rest ih =>
      simp only [processDir]
      exact ih _ (dirStep_constr_mono a dir dir' viol st i bn' v h)

lemma processDir_pf_mono (a : AVInput) (dir : Dir) (viol : List ℕ) (l : List ℕ)
    (st : AVState) (bn' : String) (e : FlowExpr) (h : st.pf bn' = some e) :
    (processDir a dir viol st l).st.pf bn' = some e := by
  induction l generalizing st with
  | nil => exact h
  | cons i rest ih =>
      simp only [processDir]
      exact ih _ (dirStep_pf_mono a dir viol st i bn' e h)

lemma processDir_rating (a : AVInput) (dir : Dir) (viol : List ℕ) (l : List ℕ)
    (st : AVState) (bn' : String) :
    ((processDir a dir viol st l).st.branches bn').rating_long_term =
      (st.branches bn').rating_long_term := by
  induction l generalizing st with
  | nil => rfl
  | cons i rest ih =>
      simp only [processDir]
      rw [ih, dirStep_rating]

lemma processDir_lb_of_ub (a : AVInput) (viol : List ℕ) (l : List ℕ) (st : AVState) :
    (processDir a Dir.UB viol st l).st.ineq_pf_branch_thermal_lb =
      st.ineq_pf_branch_thermal_lb := by
  induction l generalizing st with
  | nil => rfl
  | cons i rest ih =>
      simp only [processDir]
      rw [ih, dirStep_lb_of_ub]

lemma processDir_ub_of_lb (a : AVInput) (viol : List ℕ) (l : List ℕ) (st : AVState) :
    (processDir a Dir.LB viol st l).st.ineq_pf_branch_thermal_ub =
      st.ineq_pf_branch_thermal_ub := by
  induction l generalizing st with
  | nil => rfl
  | cons i rest ih =>
      simp only [processDir]
      rw [ih, dirStep_ub_of_lb]

lemma processDir_processed (a : AVInput) (dir : Dir) (viol : List ℕ) (l : List ℕ)
    (st : AVState) : (processDir a dir viol st l).processed = l := by
  induction l generalizing st with
  | nil => rfl
  | cons i rest ih =>
      simp only [processDir]
      rw [dirStep_processed, ih]
      rfl

lemma processDir_pushed_nil (a : AVInput) (dir : Dir) (viol : List ℕ) (l : List ℕ)
    (st : AVState) (h : a.persistent_solver = false) :
    (processDir a dir viol st l).pushed = [] := by
  induction l generalizing st with
  | nil => rfl
  | cons i rest ih =>
      simp only [processDir]
      rw [dirStep_pushed_nil a dir viol st i h, ih]
      rfl

lemma processDir_covers (a : AVInput) (dir : Dir) (viol : List ℕ) (l : List ℕ)
    (st : AVState) :
    ∀ i ∈ l, ((processDir a dir viol st l).st.pf (branchName a i)).isSome = true ∧
      (getConstr dir (processDir a dir viol st l).st (branchName a i)).isSome = true := by
  induction l generalizing st with
  | nil => intro i hi; cases hi
  | cons j rest ih =>
      intro i hi
      simp only [processDir]
      rcases List.mem_cons.mp hi with rfl | hr
      · obtain ⟨e, he⟩ := Option.isSome_iff_exists.mp (dirStep_pf_some a dir viol st i)
        obtain ⟨v, hv⟩ := Option.isSome_iff_exists.mp (dirStep_constr_some a dir viol st i)
        exact ⟨by rw [processDir_pf_mono a dir viol rest _ _ e he]; rfl,
          by rw [processDir_constr_mono a dir dir viol rest _ _ v hv]; rfl⟩
      · exact ih _ i hr

lemma processDir_stable (a : AVInput) (dir : Dir) (viol : List ℕ) (l : List ℕ)
    (st : AVState)
    (h : ∀ i ∈ l, (st.pf (branchName a i)).isSome = true ∧
      (getConstr dir st (branchName a i)).isSome = true) :
    processDir a dir viol st l =
      { st := st
        diags := (l.filter (fun i => decide (i ∈ viol))).map (fun i =>
          generate_flow_viol_warning (senseStr dir) (branchName a i) (a.PFV.getD i 0)
            (dirLimit dir (st.branches (branchName a i)).rating_long_term)
            a.baseMVA a.time)
        pushed := []
        count := l.countP (fun i => decide (i ∈ viol))
        processed := l } := by
  induction l with
  | nil => rfl
  | cons i rest ih =>
      obtain ⟨hpf, hc⟩ := h i (List.mem_cons_self i rest)
      obtain ⟨e, he⟩ := Option.isSome_iff_exists.mp hpf
      have hrest := ih (fun j hj => h j (List.mem_cons_of_mem i hj))
      simp only [processDir, dirStep_stable a dir viol st i e he hc, hrest,
        List.filter_cons, List.countP_cons]
      by_cases hm : i ∈ viol <;> simp [hm, Nat.add_comm]

lemma processDir_new (a : AVInput) (dir : Dir) (viol : List ℕ) (l : List ℕ)
    (st : AVState) (bn : String) (h0 : getConstr dir st bn = none)
    (hin : ∃ i ∈ l, branchName a i = bn) :
    ∃ e f, getConstr dir (processDir a dir viol st l).st bn =
        some (dirEntry dir (st.branches bn).rating_long_term e) ∧
      generate_flow_monitor_message (senseStr dir) bn f
        (dirLimit dir (st.branches bn).rating_long_term) a.baseMVA a.time
        ∈ (processDir a dir viol st l).diags ∧
      (a.persistent_solver = true →
        (bn, dirEntry dir (st.branches bn).rating_long_term e) ∈
          (processDir a dir viol st l).pushed) := by
  induction l generalizing st with
  | nil =>
      obtain ⟨i, hi, _⟩ := hin
      cases hi
  | cons j rest ih =>
      obtain ⟨i, hi, hbn⟩ := hin
      simp only [processDir]
      by_cases hj : branchName a j = bn
      · subst hj
        obtain ⟨e, hce, hdg, hps⟩ := dirStep_new a dir viol st j h0
        refine ⟨e, a.PFV.getD j 0, ?_, ?_, ?_⟩
        · exact processDir_constr_mono a dir dir viol rest _ _ _ hce
        · refine List.mem_append_left _ ?_
          rw [hdg]
          exact List.mem_singleton_self _
        · intro hp
          refine List.mem_append_left _ ?_
          rw [hps, if_pos hp]
          exact List.mem_singleton_self _
      · have h0' : getConstr dir (dirStep a dir viol st j).st bn = none := by
          rw [dirStep_constr_other a dir viol st j bn (fun hh => hj hh.symm)]
          exact h0
        have hrt := dirStep_rating a dir viol st j bn
        have hin' : ∃ i ∈ rest, branchName a i = bn := by
          rcases List.mem_cons.mp hi with rfl | hr
          · exact absurd hbn hj
          · exact ⟨i, hr, hbn⟩
        obtain ⟨e, f, hce, hdg, hps⟩ := ih _ h0' hin'
        rw [hrt] at hce hdg hps
        exact ⟨e, f, hce, List.mem_append_right _ hdg,
          fun hp => List.mem_append_right _ (hps hp)⟩

lemma processDir_count (a : AVInput) (dir : Dir) (viol : List ℕ) (l : List ℕ)
    (st : AVState) (hnd : l.Nodup)
    (hinj : ∀ i ∈ l, ∀ j ∈ l, branchName a i = branchName a j → i = j) :
    (processDir a dir viol st l).count =
      l.countP (fun i => decide (i ∈ viol) &&
        (getConstr dir st (branchName a i)).isSome) := by
  induction l generalizing st with
  | nil => rfl
  | cons i rest ih =>
      have hnotin : i ∉ rest := (List.nodup_cons.mp hnd).1
      have hrest := ih (dirStep a dir viol st i).st (List.nodup_cons.mp hnd).2
        (fun x hx y hy => hinj x (List.mem_cons_of_mem i hx) y
          (List.mem_cons_of_mem i hy))
      have hrest' : (processDir a dir viol (dirStep a dir viol st i).st rest).count =
          rest.countP (fun j => decide (j ∈ viol) &&
            (getConstr dir st (branchName a j)).isSome) := by
        rw [hrest]
        refine List.countP_congr ?_
        intro x hx
        have hne : branchName a x ≠ branchName a i := fun hh =>
          hnotin (by
            have := hinj x (List.mem_cons_of_mem i hx) i (List.mem_cons_self i rest) hh
            rwa [this] at hx)
        rw [dirStep_constr_other a dir viol st i (branchName a x) hne]
      simp only [processDir]
      rw [List.countP_cons, hrest', dirStep_count]
      by_cases h1 : (getConstr dir st (branchName a i)).isSome = true <;>
        by_cases h2 : i ∈ viol <;> simp [h1, h2, Nat.add_comm]

lemma countP_mem_and_eq_length_iff (viol lazy : List ℕ) (q : ℕ → Bool)
    (hsub : viol ⊆ lazy) (hvnd : viol.Nodup) (hlnd : lazy.Nodup) :
    lazy.countP (fun i => decide (i ∈ viol) && q i) = viol.length ↔
      ∀ i ∈ viol, q i = true := by
  rw [List.countP_eq_length_filter]
  have h1 : (lazy.filter (fun i => decide (i ∈ viol) && q i)).toFinset =
      viol.toFinset.filter (fun i => q i = true) := by
    rw [List.toFinset_filter]
    ext x
    simp only [Finset.mem_filter, List.mem_toFinset, Bool.and_eq_true, decide_eq_true_eq]
    constructor
    · rintro ⟨_, hv, hq⟩
      exact ⟨hv, hq⟩
    · rintro ⟨hv, hq⟩
      exact ⟨hsub hv, hv, hq⟩
  have h2 : (lazy.filter (fun i => decide (i ∈ viol) && q i)).length =
      (viol.toFinset.filter (fun i => q i = true)).card := by
    rw [← h1, List.toFinset_card_of_nodup (hlnd.filter _)]
  rw [h2, ← List.toFinset_card_of_nodup hvnd]
  constructor
  · intro hcard
    have hss : viol.toFinset.filter (fun i => q i = true) ⊆ viol.toFinset :=
      Finset.filter_subset _ _
    have heq : viol.toFinset.filter (fun i => q i = true) = viol.toFinset :=
      Finset.eq_of_subset_of_card_le hss (le_of_eq hcard.symm)
    intro i hi
    have hmem : i ∈ viol.toFinset := List.mem_toFinset.mpr hi
    rw [← heq] at hmem
    exact (Finset.mem_filter.mp hmem).2
  · intro hq
    congr 1
    refine Finset.filter_eq_self.mpr ?_
    intro x hx
    exact hq x (List.mem_toFinset.mp hx)

/-! ### Theorems: the constraint adder `add_violations` (C1, C5, C6, C7, C8) -/

/-- **C7.** Monotonicity of the monitored set: every branch+direction entry present in
the lower- or upper-bound constraint container before a call to `add_violations` is
still present, with the same bounds, afterwards — the call never deletes or overwrites
an entry. -/
theorem add_violations_monotone (a : AVInput) (st0 : AVState) (bn : String)
    (v w : ConstrEntry) :
    (st0.ineq_pf_branch_thermal_lb bn = some v →
      (add_violations a st0).st.ineq_pf_branch_thermal_lb bn = some v) ∧
    (st0.ineq_pf_branch_thermal_ub bn = some w →
      (add_violations a st0).st.ineq_pf_branch_thermal_ub bn = some w) := by
  constructor
  · intro h
    exact processDir_constr_mono a Dir.UB Dir.LB a.gt_viol a.gt_viol_lazy _ bn v
      (processDir_constr_mono a Dir.LB Dir.LB a.lt_viol a.lt_viol_lazy st0 bn v h)
  · intro h
    exact processDir_constr_mono a Dir.UB Dir.UB a.gt_viol a.gt_viol_lazy _ bn w
      (processDir_constr_mono a Dir.LB Dir.UB a.lt_viol a.lt_viol_lazy st0 bn w h)

/-- Witness for C7: the pre-existing upper-bound entry of branch `b0` survives the
call unchanged. -/
theorem add_violations_monotone_witness :
    (add_violations exInput exState).st.ineq_pf_branch_thermal_ub "b0" =
      some ⟨none, ⟨"b0"⟩, some 1⟩ :=
  (add_violations_monotone exInput exState "b0" ⟨none, ⟨"b0"⟩, some 1⟩
    ⟨none, ⟨"b0"⟩, some 1⟩).2 rfl

/-- **C8.** Determinism and ordering: `add_violations` is a pure function of its
inputs (identical PTDF data, violation sets, flows, tolerances and model state give
identical results — in particular identical constraint-addition order and identical
diagnostics); each direction loop processes its lazy violation set exactly in list
order; and the index lists produced by `check_violations` are ascending in the PTDF
bundle's branch-sequence position, so that order is the fixed position order. -/
theorem add_violations_deterministic (a a' : AVInput) (st st' : AVState)
    (ha : a = a') (hst : st = st') :
    add_violations a st = add_violations a' st' ∧
    (add_violations a st).processedLB = a.lt_viol_lazy ∧
    (add_violations a st).processedUB = a.gt_viol_lazy ∧
    (∀ M enf lz exprs,
      (check_violations M enf lz exprs).gt_viol_lazy.Sorted (· < ·) ∧
      (check_violations M enf lz exprs).lt_viol_lazy.Sorted (· < ·) ∧
      (check_violations M enf lz exprs).gt_viol.Sorted (· < ·) ∧
      (check_violations M enf lz exprs).lt_viol.Sorted (· < ·)) := by
  subst ha
  subst hst
  refine ⟨rfl, processDir_processed a Dir.LB a.lt_viol a.lt_viol_lazy st,
    processDir_processed a Dir.UB a.gt_viol a.gt_viol_lazy _, ?_⟩
  intro M enf lz exprs
  exact ⟨sorted_gtIndices _ _, sorted_ltIndices _ _, sorted_gtIndices _ _,
    sorted_ltIndices _ _⟩

/-- Witness for C8 at a concrete input: the run equals itself and the processing
order is the lazy violation sets as given. -/
theorem add_violations_deterministic_witness :
    add_violations exInput exState = add_violations exInput exState ∧
    (add_violations exInput exState).processedLB = [] ∧
    (add_violations exInput exState).processedUB = [0] :=
  ⟨(add_violations_deterministic exInput exInput exState exState rfl rfl).1,
   (add_violations_deterministic exInput exInput exState exState rfl rfl).2.1,
   (add_violations_deterministic exInput exInput exState exState rfl rfl).2.2.1⟩

/-- Counterexample to C1 as stated: at a concrete input whose only true violation is
already backed by a previously-existing materialized constraint, `add_violations`
still returns `None` — the function has no return statement — rather than the boolean
`all_covered`; the boolean is computed internally (`all_viol_in_mb = true` here) and
then dropped. -/
theorem add_violations_returns_none :
    (add_violations exInput exState).ret = none ∧
    (add_violations exInput exState).all_viol_in_mb = true :=
  ⟨rfl, rfl⟩

/-- **C1 (amended).** `add_violations` computes a local boolean `all_viol_in_mb` that
is true exactly when every true-violation index is backed by a materialized,
previously-existing constraint in the corresponding container (given that the true
violation sets are contained in the lazy ones, the index lists are duplicate-free, and
branch names are injective on each lazy set), but the function returns `None` — the
boolean is never returned to the caller. -/
theorem add_violations_all_viol_in_mb_spec (a : AVInput) (st0 : AVState)
    (hltsub : a.lt_viol ⊆ a.lt_viol_lazy) (hgtsub : a.gt_viol ⊆ a.gt_viol_lazy)
    (hltnd : a.lt_viol.Nodup) (hgtnd : a.gt_viol.Nodup)
    (hltlznd : a.lt_viol_lazy.Nodup) (hgtlznd : a.gt_viol_lazy.Nodup)
    (hltinj : ∀ i ∈ a.lt_viol_lazy, ∀ j ∈ a.lt_viol_lazy,
      branchName a i = branchName a j → i = j)
    (hgtinj : ∀ i ∈ a.gt_viol_lazy, ∀ j ∈ a.gt_viol_lazy,
      branchName a i = branchName a j → i = j) :
    (add_violations a st0).ret = none ∧
    ((add_violations a st0).all_viol_in_mb = true ↔
      ((∀ i ∈ a.lt_viol,
          (st0.ineq_pf_branch_thermal_lb (branchName a i)).isSome = true) ∧
       (∀ i ∈ a.gt_viol,
          (st0.ineq_pf_branch_thermal_ub (branchName a i)).isSome = true))) := by
  refine ⟨rfl, ?_⟩
  have hcount1 := processDir_count a Dir.LB a.lt_viol a.lt_viol_lazy st0 hltlznd hltinj
  have hcount2 := processDir_count a Dir.UB a.gt_viol a.gt_viol_lazy
    (processDir a Dir.LB a.lt_viol st0 a.lt_viol_lazy).st hgtlznd hgtinj
  have hub : ∀ j, getConstr Dir.UB (processDir a Dir.LB a.lt_viol st0 a.lt_viol_lazy).st
      (branchName a j) = getConstr Dir.UB st0 (branchName a j) := by
    intro j
    show (processDir a Dir.LB a.lt_viol st0 a.lt_viol_lazy).st.ineq_pf_branch_thermal_ub
        (branchName a j) = _
    rw [processDir_ub_of_lb]
    rfl
  have hcount2' : (processDir a Dir.UB a.gt_viol
      (processDir a Dir.LB a.lt_viol st0 a.lt_viol_lazy).st a.gt_viol_lazy).count =
      a.gt_viol_lazy.countP (fun i => decide (i ∈ a.gt_viol) &&
        (getConstr Dir.UB st0 (branchName a i)).isSome) := by
    rw [hcount2]
    refine List.countP_congr ?_
    intro x _
    rw [hub x]
  show (decide _ && decide _) = true ↔ _
  rw [Bool.and_eq_true, decide_eq_true_eq, decide_eq_true_eq, hcount1, hcount2']
  constructor
  · rintro ⟨h1, h2⟩
    exact ⟨(countP_mem_and_eq_length_iff a.lt_viol a.lt_viol_lazy _ hltsub hltnd
        hltlznd).mp h1.symm,
      (countP_mem_and_eq_length_iff a.gt_viol a.gt_viol_lazy _ hgtsub hgtnd
        hgtlznd).mp h2.symm⟩
  · rintro ⟨h1, h2⟩
    exact ⟨((countP_mem_and_eq_length_iff a.lt_viol a.lt_viol_lazy _ hltsub hltnd
        hltlznd).mpr h1).symm,
      ((countP_mem_and_eq_length_iff a.gt_viol a.gt_viol_lazy _ hgtsub hgtnd
        hgtlznd).mpr h2).symm⟩

/-- Witness for the amended C1: at the concrete input whose true violation is backed
by a pre-existing constraint, the internal boolean is true. -/
theorem add_violations_all_viol_in_mb_witness :
    (add_violations exInput exState).all_viol_in_mb = true :=
  (add_violations_all_viol_in_mb_spec exInput exState
    (fun x hx => by cases hx) (fun x hx => hx)
    (by decide) (by decide) (by decide) (by decide)
    (by intro i hi j hj _; simp [exInput] at hi)
    (by intro i hi j hj _; simp [exInput] at hi hj; omega)).2.mpr
    ⟨(fun i hi => by cases hi),
     (fun i hi => by simp [exInput] at hi; subst hi; rfl)⟩

/-- Counterexample to C5 as stated: with branch `b0` already monitored and truly
violating, the first call prints the "monitored but violated" warning — and an
identical second call prints the identical warning again, so the second call does
emit duplicate diagnostics. -/
theorem add_violations_rerun_duplicate :
    (add_violations exInput exState).diags =
      [Diag.flow_viol_warning "UB" "b0" (2 * 1) (1 * 1) none] ∧
    (add_violations exInput (add_violations exInput exState).st).diags =
      [Diag.flow_viol_warning "UB" "b0" (2 * 1) (1 * 1) none] :=
  ⟨rfl, rfl⟩

/-- **C5 (amended).** Rerunning `add_violations` on the same classification and the
state it produced is idempotent on the model: the state is unchanged, nothing is
pushed to the solver, and no constraint is re-added — but the diagnostics are not
suppressed: the second call re-emits the enforced-limit warning for exactly the
true-violation indices of each lazy set (so warnings are duplicated whenever a true
violation persists). -/
theorem add_violations_rerun_spec (a : AVInput) (st0 : AVState) :
    (add_violations a (add_violations a st0).st).st = (add_violations a st0).st ∧
    (add_violations a (add_violations a st0).st).pushed = [] ∧
    (add_violations a (add_violations a st0).st).diags =
      (a.lt_viol_lazy.filter (fun i => decide (i ∈ a.lt_viol))).map (fun i =>
        generate_flow_viol_warning "LB" (branchName a i) (a.PFV.getD i 0)
          (-(((add_violations a st0).st.branches (branchName a i)).rating_long_term))
          a.baseMVA a.time) ++
      (a.gt_viol_lazy.filter (fun i => decide (i ∈ a.gt_viol))).map (fun i =>
        generate_flow_viol_warning "UB" (branchName a i) (a.PFV.getD i 0)
          ((((add_violations a st0).st.branches (branchName a i)).rating_long_term))
          a.baseMVA a.time) := by
  have hcovLB := processDir_covers a Dir.LB a.lt_viol a.lt_viol_lazy st0
  have hcovUB := processDir_covers a Dir.UB a.gt_viol a.gt_viol_lazy
    (processDir a Dir.LB a.lt_viol st0 a.lt_viol_lazy).st
  have hstabLB : ∀ i ∈ a.lt_viol_lazy,
      (((add_violations a st0).st.pf (branchName a i)).isSome = true ∧
       (getConstr Dir.LB ((add_violations a st0).st) (branchName a i)).isSome = true) := by
    intro i hi
    obtain ⟨hpf, hcn⟩ := hcovLB i hi
    obtain ⟨e, he⟩ := Option.isSome_iff_exists.mp hpf
    constructor
    · show ((processDir a Dir.UB a.gt_viol (processDir a Dir.LB a.lt_viol st0
          a.lt_viol_lazy).st a.gt_viol_lazy).st.pf (branchName a i)).isSome = true
      rw [processDir_pf_mono a Dir.UB a.gt_viol a.gt_viol_lazy _ _ e he]
      rfl
    · show ((processDir a Dir.UB a.gt_viol (processDir a Dir.LB a.lt_viol st0
          a.lt_viol_lazy).st a.gt_viol_lazy).st.ineq_pf_branch_thermal_lb
          (branchName a i)).isSome = true
      rw [processDir_lb_of_ub]
      exact hcn
  have hstabUB : ∀ i ∈ a.gt_viol_lazy,
      (((add_violations a st0).st.pf (branchName a i)).isSome = true ∧
       (getConstr Dir.UB ((add_violations a st0).st) (branchName a i)).isSome = true) :=
    fun i hi => hcovUB i hi
  have h2LB := processDir_stable a Dir.LB a.lt_viol a.lt_viol_lazy
    ((add_violations a st0).st) hstabLB
  have h2UB := processDir_stable a Dir.UB a.gt_viol a.gt_viol_lazy
    ((add_violations a st0).st) hstabUB
  refine ⟨?_, ?_, ?_⟩
  · show (processDir a Dir.UB a.gt_viol
        (processDir a Dir.LB a.lt_viol ((add_violations a st0).st) a.lt_viol_lazy).st
        a.gt_viol_lazy).st = (add_violations a st0).st
    simp only [h2LB, h2UB]
  · show (processDir a Dir.LB a.lt_viol ((add_violations a st0).st)
          a.lt_viol_lazy).pushed ++
        (processDir a Dir.UB a.gt_viol
          (processDir a Dir.LB a.lt_viol ((add_violations a st0).st)
            a.lt_viol_lazy).st a.gt_viol_lazy).pushed = []
    simp only [h2LB, h2UB]
    rfl
  · show (processDir a Dir.LB a.lt_viol ((add_violations a st0).st)
          a.lt_viol_lazy).diags ++
        (processDir a Dir.UB a.gt_viol
          (processDir a Dir.LB a.lt_viol ((add_violations a st0).st)
            a.lt_viol_lazy).st a.gt_viol_lazy).diags = _
    simp only [h2LB, h2UB, senseStr, dirLimit]

/-- **C6.** For every branch in a lazy violation set whose branch+direction constraint
does not yet exist, `add_violations` materializes a constraint bounded at the branch's
true rating `rating_long_term`: `(-rating, expr, None)` in the lower direction and
`(None, expr, +rating)` in the upper direction — never the lazy limit — emits a
"new branch added to monitored set" diagnostic, and pushes the constraint via
`solver.add_constraint` exactly when the solver is persistent (with a non-persistent
solver nothing at all is pushed). -/
theorem add_violations_materializes (a : AVInput) (st0 : AVState) (bn : String) :
    ((∃ i ∈ a.lt_viol_lazy, branchName a i = bn) →
      st0.ineq_pf_branch_thermal_lb bn = none →
      ∃ e f,
        (add_violations a st0).st.ineq_pf_branch_thermal_lb bn =
          some ⟨some (-(st0.branches bn).rating_long_term), e, none⟩ ∧
        generate_flow_monitor_message "LB" bn f (-(st0.branches bn).rating_long_term)
          a.baseMVA a.time ∈ (add_violations a st0).diags ∧
        (a.persistent_solver = true →
          (bn, (⟨some (-(st0.branches bn).rating_long_term), e, none⟩ : ConstrEntry)) ∈
            (add_violations a st0).pushed)) ∧
    ((∃ i ∈ a.gt_viol_lazy, branchName a i = bn) →
      st0.ineq_pf_branch_thermal_ub bn = none →
      ∃ e f,
        (add_violations a st0).st.ineq_pf_branch_thermal_ub bn =
          some ⟨none, e, some ((st0.branches bn).rating_long_term)⟩ ∧
        generate_flow_monitor_message "UB" bn f ((st0.branches bn).rating_long_term)
          a.baseMVA a.time ∈ (add_violations a st0).diags ∧
        (a.persistent_solver = true →
          (bn, (⟨none, e, some ((st0.branches bn).rating_long_term)⟩ : ConstrEntry)) ∈
            (add_violations a st0).pushed)) ∧
    (a.persistent_solver = false → (add_violations a st0).pushed = []) := by
  refine ⟨?_, ?_, ?_⟩
  · intro hin h0
    obtain ⟨e, f, hce, hdg, hps⟩ :=
      processDir_new a Dir.LB a.lt_viol a.lt_viol_lazy st0 bn h0 hin
    refine ⟨e, f, ?_, ?_, ?_⟩
    · have hmono := processDir_constr_mono a Dir.UB Dir.LB a.gt_viol a.gt_viol_lazy
        (processDir a Dir.LB a.lt_viol st0 a.lt_viol_lazy).st bn _ hce
      simpa [getConstr, dirEntry] using hmono
    · exact List.mem_append_left _ (by simpa [senseStr, dirLimit] using hdg)
    · intro hp
      exact List.mem_append_left _ (by simpa [dirEntry] using hps hp)
  · intro hin h0
    have h0' : getConstr Dir.UB
        (processDir a Dir.LB a.lt_viol st0 a.lt_viol_lazy).st bn = none := by
      show (processDir a Dir.LB a.lt_viol st0
        a.lt_viol_lazy).st.ineq_pf_branch_thermal_ub bn = none
      rw [processDir_ub_of_lb]
      exact h0
    obtain ⟨e, f, hce, hdg, hps⟩ := processDir_new a Dir.UB a.gt_viol a.gt_viol_lazy
      (processDir a Dir.LB a.lt_viol st0 a.lt_viol_lazy).st bn h0' hin
    rw [processDir_rating] at hce hdg hps
    refine ⟨e, f, by simpa [getConstr, dirEntry] using hce,
      List.mem_append_right _ (by simpa [senseStr, dirLimit] using hdg),
      fun hp => List.mem_append_right _ (by simpa [dirEntry] using hps hp)⟩
  · intro hp
    show (processDir a Dir.LB a.lt_viol st0 a.lt_viol_lazy).pushed ++
        (processDir a Dir.UB a.gt_viol (processDir a Dir.LB a.lt_viol st0
          a.lt_viol_lazy).st a.gt_viol_lazy).pushed = []
    rw [processDir_pushed_nil a Dir.LB a.lt_viol a.lt_viol_lazy st0 hp,
      processDir_pushed_nil a Dir.UB a.gt_viol a.gt_viol_lazy _ hp]
    rfl

/-- Witness for C6: with an empty model state and a persistent solver, the upper
violation of branch `b0` materializes `(None, expr, +1)`, emits the monitor message,
and is pushed to the solver. -/
theorem add_violations_materializes_witness :
    ∃ e f,
      (add_violations exInputP exEmptyState).st.ineq_pf_branch_thermal_ub "b0" =
        some ⟨none, e, some ((exEmptyState.branches "b0").rating_long_term)⟩ ∧
      generate_flow_monitor_message "UB" "b0" f
        ((exEmptyState.branches "b0").rating_long_term) exInputP.baseMVA exInputP.time ∈
        (add_violations exInputP exEmptyState).diags ∧
      (exInputP.persistent_solver = true →
        ("b0", (⟨none, e, some ((exEmptyState.branches "b0").rating_long_term)⟩ :
          ConstrEntry)) ∈ (add_violations exInputP exEmptyState).pushed) :=
  (add_violations_materializes exInputP exEmptyState "b0").2.1
    ⟨0, by decide, rfl⟩ rfl

/-! ### Theorems: binary relaxer / enforcer (C10) -/

lemma setDomains_apply (vs : List UCVar) (d : VarDomain) (dom : DomainMap) (v : UCVar) :
    setDomains vs d dom v = if v ∈ vs then d else dom v := by
  induction vs generalizing dom with
  | nil => simp [setDomains]
  | cons x xs ih =>
      show setDomains xs d (fun v' => if v' = x then d else dom v') v = _
      rw [ih]
      by_cases hv : v ∈ xs <;> by_cases hx : v = x <;>
        simp [hv, hx, List.mem_cons]

/-- **C10.** Relax followed by enforce round-trips the variable domains: both passes
enumerate the same variable sequence `binary_var_generator` (a function of the
instance configuration only, so relaxing cannot change it), `update_var` is called on
each enumerated variable in each pass exactly when the solver is persistent, after the
round trip every enumerated variable's domain is `Binary` again, and non-enumerated
variables are untouched throughout. -/
theorem uc_relax_enforce_round_trip (inst : UCInstance) (persistent_solver : Bool)
    (dom : DomainMap) :
    (uc_instance_binary_relaxer inst persistent_solver dom).2 =
      (if persistent_solver then binary_var_generator inst else []) ∧
    (uc_instance_binary_enforcer inst persistent_solver
        (uc_instance_binary_relaxer inst persistent_solver dom).1).2 =
      (if persistent_solver then binary_var_generator inst else []) ∧
    (∀ v ∈ binary_var_generator inst,
      (uc_instance_binary_enforcer inst persistent_solver
        (uc_instance_binary_relaxer inst persistent_solver dom).1).1 v =
        VarDomain.Binary) ∧
    (∀ v, v ∉ binary_var_generator inst →
      (uc_instance_binary_enforcer inst persistent_solver
        (uc_instance_binary_relaxer inst persistent_solver dom).1).1 v = dom v) := by
  refine ⟨rfl, rfl, ?_, ?_⟩
  · intro v hv
    show setDomains (binary_var_generator inst) VarDomain.Binary _ v = _
    rw [setDomains_apply]
    simp [hv]
  · intro v hv
    show setDomains (binary_var_generator inst) VarDomain.Binary
      (setDomains (binary_var_generator inst) VarDomain.UnitInterval dom) v = dom v
    rw [setDomains_apply, setDomains_apply]
    simp [hv]

/-- Witness for C10 on a one-generator `garver_3bin_vars` instance: `UnitOn` is
enumerated, and after relax-then-enforce with a persistent solver its domain is
`Binary` and the update trace is the full enumeration. -/
theorem uc_relax_enforce_round_trip_witness :
    (uc_instance_binary_enforcer exUC true
        (uc_instance_binary_relaxer exUC true exDom).1).2 =
      (if true then binary_var_generator exUC else []) ∧
    (uc_instance_binary_enforcer exUC true
        (uc_instance_binary_relaxer exUC true exDom).1).1 (UCVar.UnitOn "g1" 1) =
      VarDomain.Binary :=
  ⟨(uc_relax_enforce_round_trip exUC true exDom).2.1,
   (uc_relax_enforce_round_trip exUC true exDom).2.2.1 (UCVar.UnitOn "g1" 1)
     (by decide)⟩

end LazyPtdf
